import Mathlib

/-!
Verification of the geometric core of `board_cutout.py`: outline extraction,
offset re-basing, corner extraction with tab exclusion, and the multi-pass
depth sequencer.  Python floats are modelled as exact rationals; the
unbounded `while` loops and `next(...)` searches are modelled with fuel and
`Option`, where `none` stands for a non-terminating loop or a raised
`StopIteration`.
-/

namespace BoardCutout

/-- A 2-D point, the `(x, y)` tuples of the script. -/
abbrev Point := ℚ × ℚ

/-- The module constant `Tolerance = 1e-8`. -/
def Tolerance : ℚ := 1 / 100000000

/-- Python `min` over a list of numbers (first minimum; total model returns 0 on `[]`,
where CPython would raise). -/
def pyMin : List ℚ → ℚ
  | [] => 0
  | x :: rest => rest.foldl min x

/-- Python `max` over a list of numbers. -/
def pyMax : List ℚ → ℚ
  | [] => 0
  | x :: rest => rest.foldl max x

/-- `BoardGeometry.xs`. -/
def xsOf (outline : List Point) : List ℚ := outline.map Prod.fst

/-- `BoardGeometry.ys`. -/
def ysOf (outline : List Point) : List ℚ := outline.map Prod.snd

/-- `min_x` of `extract_corner` / `extents`. -/
def min_x (outline : List Point) : ℚ := pyMin (xsOf outline)

/-- `max_x` of `extract_corner` / `extents`. -/
def max_x (outline : List Point) : ℚ := pyMax (xsOf outline)

/-- `min_y` of `extract_corner` / `extents`. -/
def min_y (outline : List Point) : ℚ := pyMin (ysOf outline)

/-- `max_y` of `extract_corner` / `extents`. -/
def max_y (outline : List Point) : ℚ := pyMax (ysOf outline)

/-- `tab_x = (max_x - min_x - tab_size)/2`. -/
def tab_x (outline : List Point) (tab_size : ℚ) : ℚ :=
  (max_x outline - min_x outline - tab_size) / 2

/-- `tab_y = (max_y - min_y - tab_size)/2`. -/
def tab_y (outline : List Point) (tab_size : ℚ) : ℚ :=
  (max_y outline - min_y outline - tab_size) / 2

/-- The `start_xy` table of `extract_corner`, indexed by corner. -/
def start_xy (outline : List Point) (tab_size : ℚ) : List Point :=
  [(min_x outline + tab_x outline tab_size, min_y outline),
   (min_x outline, max_y outline - tab_y outline tab_size),
   (max_x outline - tab_x outline tab_size, max_y outline),
   (max_x outline, min_y outline + tab_y outline tab_size)]

/-- The `end_xy` table of `extract_corner`, indexed by corner. -/
def end_xy (outline : List Point) (tab_size : ℚ) : List Point :=
  [(min_x outline, min_y outline + tab_y outline tab_size),
   (min_x outline + tab_x outline tab_size, max_y outline),
   (max_x outline, max_y outline - tab_y outline tab_size),
   (max_x outline - tab_x outline tab_size, min_y outline)]

/-- The inner `walk_edge` of `extract_corner`: starting at `idx`, append points while
the loop condition holds, advancing cyclically.  The walker revisits its start after
`outline.length` steps, so that much fuel is exact: `none` means the Python loop
never terminates. -/
def walk_edge (outline : List Point) (cond : Point → Bool) : ℕ → ℕ → Option (List Point)
  | 0, idx => if cond (outline.getD idx (0, 0)) then none else some []
  | fuel + 1, idx =>
    let p := outline.getD idx (0, 0)
    if cond p then (walk_edge outline cond fuel ((idx + 1) % outline.length)).map (p :: ·)
    else some []

/-- `BoardGeometry.extract_corner`: start point, walked run of outline vertices,
end point.  `none` models a raised `StopIteration` (no vertex matches the starting
edge within tolerance) or a walk that never reaches its stopping coordinate. -/
def extract_corner (outline : List Point) (corner : Fin 4) (tab_size tol : ℚ) :
    Option (List Point) :=
  let s := (start_xy outline tab_size).getD corner.val (0, 0)
  let e := (end_xy outline tab_size).getD corner.val (0, 0)
  let n := outline.length
  if corner.val = 0 ∨ corner.val = 2 then
    (List.findIdx? (fun q => decide (|q.2 - s.2| ≤ tol)) outline).bind fun i =>
      let p := outline.getD i (0, 0)
      if corner.val = 0 then
        let i2 := if s.1 < p.1 then (i + 1) % n else i
        (walk_edge outline (fun q => decide (tol < |q.1 - min_x outline|)) n i2).map
          fun w => s :: (w ++ [e])
      else
        let i2 := if p.1 < s.1 then (i + 1) % n else i
        (walk_edge outline (fun q => decide (tol < |q.1 - max_x outline|)) n i2).map
          fun w => s :: (w ++ [e])
  else
    (List.findIdx? (fun q => decide (|q.1 - s.1| ≤ tol)) outline).bind fun i =>
      let p := outline.getD i (0, 0)
      if corner.val = 1 then
        let i2 := if p.2 < s.2 then (i + 1) % n else i
        (walk_edge outline (fun q => decide (tol < |q.2 - max_y outline|)) n i2).map
          fun w => s :: (w ++ [e])
      else
        let i2 := if s.2 < p.2 then (i + 1) % n else i
        (walk_edge outline (fun q => decide (tol < |q.2 - min_y outline|)) n i2).map
          fun w => s :: (w ++ [e])

/-- Squared distance to the origin of vertex `i`, the key of the `min(range(...))`
call in `BoardGeometry.offset`. -/
def sq_dist (l : List Point) (i : ℕ) : ℚ :=
  (l.getD i (0, 0)).1 ^ 2 + (l.getD i (0, 0)).2 ^ 2

/-- `min(range(len(new_outline)), key=...)`: first index of minimum key. -/
def min_idx (l : List Point) : ℕ :=
  (List.range l.length).foldl (fun acc i => if sq_dist l i < sq_dist l acc then i else acc) 0

/-- The exclusive-or transition test of `BoardGeometry.offset`: exactly one of the
two coordinate deltas to the next vertex is within `Tolerance`. -/
def xor_cond (l : List Point) (idx : ℕ) : Bool :=
  let curr := l.getD idx (0, 0)
  let nxt := l.getD ((idx + 1) % l.length) (0, 0)
  xor (decide (|curr.1 - nxt.1| < Tolerance)) (decide (|curr.2 - nxt.2| < Tolerance))

/-- The `for _ in range(n)` search loop of `BoardGeometry.offset`: advance from
`idx` until `xor_cond` holds, at most `fuel` steps. -/
def scan_start (l : List Point) : ℕ → ℕ → ℕ
  | 0, idx => idx
  | fuel + 1, idx => if xor_cond l idx then idx else scan_start l fuel ((idx + 1) % l.length)

/-- The re-basing step of `BoardGeometry.offset`, applied to the buffered boundary's
coordinate list (the `shapely` buffer itself is an external library call):
`new_outline[idx:] + new_outline[:idx]` at the found start index. -/
def rebase (l : List Point) : List Point :=
  let idx := scan_start l l.length (min_idx l)
  l.drop idx ++ l.take idx

/-- One full perimeter tour of a pass in `write_gcode`: `self.outline[1:]` then a
closing move back to the first point. -/
def perimeter_tour (outline : List Point) : List Point :=
  outline.drop 1 ++ [outline.headD (0, 0)]

/-- The perimeter depth loop of `write_gcode`: emit `(z, tour)` while
`z > tab_depth`, stepping `z += z_cut`.  Fuel models the unbounded `while`;
`none` means the loop never terminates. -/
def perimeter_passes (outline : List Point) : ℕ → ℚ → ℚ → ℚ → Option (List (ℚ × List Point))
  | 0, z, tab_depth, _ => if tab_depth < z then none else some []
  | fuel + 1, z, tab_depth, z_cut =>
    if tab_depth < z then
      (perimeter_passes outline fuel (z + z_cut) tab_depth z_cut).map
        ((z, perimeter_tour outline) :: ·)
    else some []

/-- One corner-pass traversal of `write_gcode`: `corner_poly[1:]` when
`direction == 1`, `corner_poly[-2::-1]` otherwise. -/
def corner_pass (poly : List Point) (direction : Bool) : List Point :=
  if direction then poly.drop 1 else poly.dropLast.reverse

/-- The corner depth loop of `write_gcode`: emit `(z, traversal)` while `z > depth`,
flipping `direction` and stepping `z += z_cut` each pass. -/
def corner_passes (poly : List Point) : ℕ → ℚ → ℚ → ℚ → Bool → Option (List (ℚ × List Point))
  | 0, z, depth, _, _ => if depth < z then none else some []
  | fuel + 1, z, depth, z_cut, direction =>
    if depth < z then
      (corner_passes poly fuel (z + z_cut) depth z_cut (!direction)).map
        ((z, corner_pass poly direction) :: ·)
    else some []

/-- One corner block of `write_gcode`: extract the corner segment, then run the
corner depth loop from `tab_depth` with `direction = 1`. -/
def corner_block (outline : List Point) (tab_size tab_depth depth z_cut tol : ℚ)
    (fuel : ℕ) (corner : Fin 4) : Option (List (ℚ × List Point)) :=
  (extract_corner outline corner tab_size tol).bind fun poly =>
    corner_passes poly fuel tab_depth depth z_cut true

/-- The eager startup check of `__main__`: the program prints a message and exits
non-zero iff `args.z_cut > 0`. -/
def zcut_rejected (z_cut : ℚ) : Bool := decide (0 < z_cut)

/-- The loop-closure proximity test of `find_board_outline`: current point within
`1e-5` of the loop start on both coordinates. -/
def closes (xy s : Point) : Bool :=
  decide (|xy.1 - s.1| < 1 / 100000) && decide (|xy.2 - s.2| < 1 / 100000)

/-- Scanner state of `find_board_outline`: recorded outlines, current candidate run,
and its start point (`start_xy` in the script). -/
structure ScanState where
  outlines : List (List Point)
  current : List Point
  start : Option Point

/-- One iteration of the `find_board_outline` scan.  An instruction is
`some (x, y)` when the raw line is a `G1`/`G01` carrying both an `X` and a `Y`
field (so `extract_xy` succeeds), and `none` otherwise. -/
def scan_step (st : ScanState) (instr : Option Point) : ScanState :=
  match instr with
  | some xy =>
    match st.start with
    | none => ⟨st.outlines, [xy], some xy⟩
    | some s0 =>
      let current := st.current ++ [xy]
      if closes xy s0 && decide (2 < current.length) then ⟨st.outlines ++ [current], [], none⟩
      else ⟨st.outlines, current, some s0⟩
  | none =>
    if 2 < st.current.length then ⟨st.outlines ++ [st.current], [], none⟩
    else ⟨st.outlines, [], none⟩

/-- `polygon_area`: half the absolute value of the cyclic shoelace sum. -/
def polygon_area (points : List Point) : ℚ :=
  |((List.range points.length).map fun i =>
      let p1 := points.getD i (0, 0)
      let p2 := points.getD ((i + 1) % points.length) (0, 0)
      p1.1 * p2.2 - p2.1 * p1.2).sum| / 2

/-- Python `max(xs, key=...)`: first element with maximal key. -/
def py_max_by (key : List Point → ℚ) (x : List Point) (rest : List (List Point)) :
    List Point :=
  rest.foldl (fun acc y => if key acc < key y then y else acc) x

/-- `find_board_outline` over the abstracted instruction stream: scan, final flush of
a trailing run of more than two points, then the recorded outline of largest area
(`[]` when nothing was recorded). -/
def find_board_outline (block : List (Option Point)) : List Point :=
  let st := block.foldl scan_step ⟨[], [], none⟩
  let outlines := if 2 < st.current.length then st.outlines ++ [st.current] else st.outlines
  match outlines with
  | [] => []
  | o :: rest => py_max_by polygon_area o rest

/-- A clockwise-traversed axis-aligned rectangle (clockwise for the usual y-up
orientation, as produced by the offsetting pipeline), starting at its minimum
corner. -/
def cw_rect (x0 y0 w h : ℚ) : List Point :=
  [(x0, y0), (x0, y0 + h), (x0 + w, y0 + h), (x0 + w, y0)]

end BoardCutout
namespace BoardCutout

theorem perimeter_passes_zero_cut (outline : List Point) (z tab_depth : ℚ)
    (h : tab_depth < z) : ∀ fuel, perimeter_passes outline fuel z tab_depth 0 = none := by
  intro fuel
  induction fuel with
  | zero => simp [perimeter_passes, h]
  | succ f ih => simp [perimeter_passes, h, ih]

theorem perimeter_passes_isSome_of (outline : List Point) (tab_depth z_cut : ℚ) :
    ∀ (fuel : ℕ) (z : ℚ), z + fuel * z_cut ≤ tab_depth →
      (perimeter_passes outline fuel z tab_depth z_cut).isSome := by
  intro fuel
  induction fuel with
  | zero =>
    intro z h
    push_cast at h
    have hz : ¬ tab_depth < z := by linarith
    simp [perimeter_passes, hz]
  | succ f ih =>
    intro z h
    by_cases hc : tab_depth < z
    · have h2 : (z + z_cut) + f * z_cut ≤ tab_depth := by push_cast at h ⊢; linarith
      obtain ⟨w, hw⟩ := Option.isSome_iff_exists.mp (ih _ h2)
      simp [perimeter_passes, hc, hw]
    · simp [perimeter_passes, hc]

theorem corner_passes_isSome_of (poly : List Point) (depth z_cut : ℚ) :
    ∀ (fuel : ℕ) (z : ℚ) (direction : Bool), z + fuel * z_cut ≤ depth →
      (corner_passes poly fuel z depth z_cut direction).isSome := by
  intro fuel
  induction fuel with
  | zero =>
    intro z direction h
    push_cast at h
    have hz : ¬ depth < z := by linarith
    simp [corner_passes, hz]
  | succ f ih =>
    intro z direction h
    by_cases hc : depth < z
    · have h2 : (z + z_cut) + f * z_cut ≤ depth := by push_cast at h ⊢; linarith
      obtain ⟨w, hw⟩ := Option.isSome_iff_exists.mp (ih _ (!direction) h2)
      simp [corner_passes, hc, hw]
    · simp [corner_passes, hc]

theorem steps_reach_limit (z limit z_cut : ℚ) (hz : z_cut < 0) :
    z + (⌈(z - limit) / (-z_cut)⌉₊ : ℚ) * z_cut ≤ limit := by
  have hpos : (0 : ℚ) < -z_cut := by linarith
  have h1 : (z - limit) / (-z_cut) ≤ (⌈(z - limit) / (-z_cut)⌉₊ : ℚ) := Nat.le_ceil _
  have h2 : z - limit ≤ (⌈(z - limit) / (-z_cut)⌉₊ : ℚ) * (-z_cut) := by
    calc z - limit = (z - limit) / (-z_cut) * (-z_cut) :=
          (div_mul_cancel₀ _ (ne_of_gt hpos)).symm
    _ ≤ (⌈(z - limit) / (-z_cut)⌉₊ : ℚ) * (-z_cut) :=
          mul_le_mul_of_nonneg_right h1 (le_of_lt hpos)
  linarith

/-- C4: with `z_cut = -0.006` and `tab_depth = -0.036`, the perimeter-pass loop of
`write_gcode` emits exactly six full perimeter passes, at depths
`[0, -0.006, -0.012, -0.018, -0.024, -0.030]` in that order, and terminates
(result is `some`) without emitting a pass at `-0.036`. -/
theorem c4_depth_sequence (outline : List Point) :
    (perimeter_passes outline 10 0 (-36/1000) (-6/1000)).map (List.map Prod.fst) =
      some [0, -6/1000, -12/1000, -18/1000, -24/1000, -30/1000] := by
  norm_num [perimeter_passes]

/-- C8: the startup validation accepts `z_cut = 0` (only `z_cut > 0` is rejected),
and with `z_cut = 0` the perimeter depth loop at the default
`tab_depth = -0.036` never terminates, so the program does not abort for every
non-negative `z_cut`. -/
theorem c8_zcut_zero_accepted :
    zcut_rejected 0 = false ∧
      ∀ (outline : List Point) (fuel : ℕ),
        perimeter_passes outline fuel 0 (-36/1000) 0 = none := by
  refine ⟨by norm_num [zcut_rejected], fun outline fuel => ?_⟩
  exact perimeter_passes_zero_cut outline 0 (-36/1000) (by norm_num) fuel

/-- C10: for every strictly negative `z_cut` the perimeter depth loop (from 0) and
every corner depth loop (from `tab_depth`, starting forward) terminate after
finitely many passes; the startup validation does not exclude `z_cut = 0`, and at
`z_cut = 0` the perimeter loop never terminates. -/
theorem c10_loop_termination :
    (∀ (outline : List Point) (z_cut : ℚ), z_cut < 0 → ∀ tab_depth : ℚ,
        ∃ fuel, (perimeter_passes outline fuel 0 tab_depth z_cut).isSome) ∧
    (∀ (poly : List Point) (z_cut : ℚ), z_cut < 0 → ∀ tab_depth depth : ℚ,
        ∃ fuel, (corner_passes poly fuel tab_depth depth z_cut true).isSome) ∧
    zcut_rejected 0 = false ∧
    (∀ (outline : List Point) (fuel : ℕ),
        perimeter_passes outline fuel 0 (-36/1000) 0 = none) := by
  refine ⟨fun outline z_cut hz tab_depth => ?_, fun poly z_cut hz tab_depth depth => ?_,
    by norm_num [zcut_rejected], fun outline fuel =>
      perimeter_passes_zero_cut outline 0 (-36/1000) (by norm_num) fuel⟩
  · exact ⟨_, perimeter_passes_isSome_of outline tab_depth z_cut _ 0
      (steps_reach_limit 0 tab_depth z_cut hz)⟩
  · exact ⟨_, corner_passes_isSome_of poly depth z_cut _ tab_depth true
      (steps_reach_limit tab_depth depth z_cut hz)⟩

/-- Closed witness for C10 at a concrete configuration. -/
theorem c10_witness :
    ∃ fuel, (perimeter_passes ([] : List Point) fuel 0 (-36/1000) (-6/1000)).isSome :=
  c10_loop_termination.1 [] (-6/1000) (by norm_num) (-36/1000)

theorem corner_passes_direction (poly : List Point) (depth z_cut : ℚ) :
    ∀ (fuel : ℕ) (z : ℚ) (direction : Bool) (passes : List (ℚ × List Point)),
      corner_passes poly fuel z depth z_cut direction = some passes →
      ∀ (k : ℕ) (hk : k < passes.length),
        (passes.get ⟨k, hk⟩).2 =
          corner_pass poly (if k % 2 = 0 then direction else !direction) := by
  intro fuel
  induction fuel with
  | zero =>
    intro z direction passes h k hk
    by_cases hc : depth < z
    · simp [corner_passes, hc] at h
    · simp [corner_passes, hc] at h
      subst h
      simp at hk
  | succ f ih =>
    intro z direction passes h k hk
    by_cases hc : depth < z
    · simp only [corner_passes, if_pos hc] at h
      obtain ⟨rest, hrest, hp⟩ := Option.map_eq_some'.mp h
      subst hp
      match k with
      | 0 => simp [corner_pass]
      | k + 1 =>
        have hk2 : k < rest.length := by
          simpa using hk
        have := ih (z + z_cut) (!direction) rest hrest k hk2
        simp only [List.get_cons_succ]
        rw [this]
        rcases Nat.even_or_odd k with he | ho
        · have h1 : k % 2 = 0 := Nat.even_iff.mp he
          have h2 : (k + 1) % 2 = 1 := by omega
          simp [h1, h2]
        · have h1 : k % 2 = 1 := Nat.odd_iff.mp ho
          have h2 : (k + 1) % 2 = 0 := by omega
          simp [h1, h2]
    · simp [corner_passes, hc] at h
      subst h
      simp at hk

/-- C7: in each corner block the first depth pass traverses the corner segment
forward (second point to last), each later pass reverses direction relative to the
previous one (a reverse pass runs from the second-to-last point down to the first),
and the direction counter starts forward in every corner block. -/
theorem c7_direction_alternation (outline : List Point)
    (tab_size tab_depth depth z_cut tol : ℚ) (fuel : ℕ) (corner : Fin 4)
    (poly : List Point) (passes : List (ℚ × List Point))
    (hpoly : extract_corner outline corner tab_size tol = some poly)
    (hblock : corner_block outline tab_size tab_depth depth z_cut tol fuel corner =
      some passes) :
    ∀ (k : ℕ) (hk : k < passes.length),
      (passes.get ⟨k, hk⟩).2 =
        if k % 2 = 0 then poly.drop 1 else poly.dropLast.reverse := by
  have h2 : corner_passes poly fuel tab_depth depth z_cut true = some passes := by
    simpa [corner_block, hpoly] using hblock
  intro k hk
  have h3 := corner_passes_direction poly depth z_cut fuel tab_depth true passes h2 k hk
  by_cases hk2 : k % 2 = 0 <;> simp [corner_pass, hk2] at h3 ⊢ <;> exact h3

end BoardCutout
namespace BoardCutout

theorem foldl_min_mem (xs : List ℚ) : ∀ x : ℚ, xs.foldl min x = x ∨ xs.foldl min x ∈ xs := by
  induction xs with
  | nil => intro x; left; rfl
  | cons y ys ih =>
    intro x
    rw [List.foldl_cons]
    rcases ih (min x y) with h | h
    · rcases min_choice x y with h2 | h2
      · left; rw [h, h2]
      · right; rw [h, h2]; exact List.mem_cons_self y ys
    · right; exact List.mem_cons_of_mem y h

theorem foldl_min_le (xs : List ℚ) :
    ∀ x : ℚ, xs.foldl min x ≤ x ∧ ∀ y ∈ xs, xs.foldl min x ≤ y := by
  induction xs with
  | nil => intro x; exact ⟨le_refl x, by simp⟩
  | cons y ys ih =>
    intro x
    rw [List.foldl_cons]
    refine ⟨(ih (min x y)).1.trans (min_le_left x y), ?_⟩
    intro z hz
    rcases List.mem_cons.mp hz with rfl | hz2
    · exact (ih (min x z)).1.trans (min_le_right x z)
    · exact (ih (min x y)).2 z hz2

theorem foldl_max_mem (xs : List ℚ) : ∀ x : ℚ, xs.foldl max x = x ∨ xs.foldl max x ∈ xs := by
  induction xs with
  | nil => intro x; left; rfl
  | cons y ys ih =>
    intro x
    rw [List.foldl_cons]
    rcases ih (max x y) with h | h
    · rcases max_choice x y with h2 | h2
      · left; rw [h, h2]
      · right; rw [h, h2]; exact List.mem_cons_self y ys
    · right; exact List.mem_cons_of_mem y h

theorem foldl_max_le (xs : List ℚ) :
    ∀ x : ℚ, x ≤ xs.foldl max x ∧ ∀ y ∈ xs, y ≤ xs.foldl max x := by
  induction xs with
  | nil => intro x; exact ⟨le_refl x, by simp⟩
  | cons y ys ih =>
    intro x
    rw [List.foldl_cons]
    refine ⟨(le_max_left x y).trans (ih (max x y)).1, ?_⟩
    intro z hz
    rcases List.mem_cons.mp hz with rfl | hz2
    · exact (le_max_right x z).trans (ih (max x z)).1
    · exact (ih (max x y)).2 z hz2

theorem pyMin_mem {l : List ℚ} (h : l ≠ []) : pyMin l ∈ l := by
  match l with
  | x :: xs =>
    rw [pyMin]
    rcases foldl_min_mem xs x with h2 | h2
    · rw [h2]; exact List.mem_cons_self x xs
    · exact List.mem_cons_of_mem x h2

theorem pyMin_le {l : List ℚ} : ∀ y ∈ l, pyMin l ≤ y := by
  match l with
  | [] => simp
  | x :: xs =>
    intro y hy
    rw [pyMin]
    rcases List.mem_cons.mp hy with rfl | hy2
    · exact (foldl_min_le xs y).1
    · exact (foldl_min_le xs x).2 y hy2

theorem pyMax_mem {l : List ℚ} (h : l ≠ []) : pyMax l ∈ l := by
  match l with
  | x :: xs =>
    rw [pyMax]
    rcases foldl_max_mem xs x with h2 | h2
    · rw [h2]; exact List.mem_cons_self x xs
    · exact List.mem_cons_of_mem x h2

theorem le_pyMax {l : List ℚ} : ∀ y ∈ l, y ≤ pyMax l := by
  match l with
  | [] => simp
  | x :: xs =>
    intro y hy
    rw [pyMax]
    rcases List.mem_cons.mp hy with rfl | hy2
    · exact (foldl_max_le xs y).1
    · exact (foldl_max_le xs x).2 y hy2

theorem pyMin_eq_of {l : List ℚ} {x : ℚ} (hx : x ∈ l) (hle : ∀ y ∈ l, x ≤ y) :
    pyMin l = x :=
  le_antisymm (pyMin_le x hx) (hle _ (pyMin_mem (List.ne_nil_of_mem hx)))

theorem pyMax_eq_of {l : List ℚ} {x : ℚ} (hx : x ∈ l) (hle : ∀ y ∈ l, y ≤ x) :
    pyMax l = x :=
  le_antisymm (hle _ (pyMax_mem (List.ne_nil_of_mem hx))) (le_pyMax x hx)

theorem exists_fst_min_x {outline : List Point} (h : outline ≠ []) :
    ∃ q ∈ outline, q.1 = min_x outline := by
  have hne : xsOf outline ≠ [] := by simpa [xsOf] using h
  have := pyMin_mem hne
  rw [xsOf] at this
  obtain ⟨q, hq, hq2⟩ := List.mem_map.mp this
  exact ⟨q, hq, hq2⟩

theorem exists_fst_max_x {outline : List Point} (h : outline ≠ []) :
    ∃ q ∈ outline, q.1 = max_x outline := by
  have hne : xsOf outline ≠ [] := by simpa [xsOf] using h
  have := pyMax_mem hne
  rw [xsOf] at this
  obtain ⟨q, hq, hq2⟩ := List.mem_map.mp this
  exact ⟨q, hq, hq2⟩

theorem exists_snd_min_y {outline : List Point} (h : outline ≠ []) :
    ∃ q ∈ outline, q.2 = min_y outline := by
  have hne : ysOf outline ≠ [] := by simpa [ysOf] using h
  have := pyMin_mem hne
  rw [ysOf] at this
  obtain ⟨q, hq, hq2⟩ := List.mem_map.mp this
  exact ⟨q, hq, hq2⟩

theorem exists_snd_max_y {outline : List Point} (h : outline ≠ []) :
    ∃ q ∈ outline, q.2 = max_y outline := by
  have hne : ysOf outline ≠ [] := by simpa [ysOf] using h
  have := pyMax_mem hne
  rw [ysOf] at this
  obtain ⟨q, hq, hq2⟩ := List.mem_map.mp this
  exact ⟨q, hq, hq2⟩

theorem exists_shift_mod (i r n : ℕ) (hr : r < n) : ∃ j < n, (i + j) % n = r := by
  have hn : 0 < n := by omega
  have him : i % n < n := Nat.mod_lt _ hn
  refine ⟨if i % n ≤ r then r - i % n else r + n - i % n, by split <;> omega, ?_⟩
  rw [← Nat.mod_add_mod]
  split
  · have h2 : i % n + (r - i % n) = r := by omega
    rw [h2, Nat.mod_eq_of_lt hr]
  · have h2 : i % n + (r + n - i % n) = r + n := by omega
    rw [h2, Nat.add_mod_right, Nat.mod_eq_of_lt hr]

theorem walk_edge_isSome (outline : List Point) (cond : Point → Bool) :
    ∀ fuel idx : ℕ, idx < outline.length →
      (∃ j ≤ fuel, cond (outline.getD ((idx + j) % outline.length) (0, 0)) = false) →
      (walk_edge outline cond fuel idx).isSome = true := by
  intro fuel
  induction fuel with
  | zero =>
    rintro idx hidx ⟨j, hj, hcond⟩
    have hj0 : j = 0 := Nat.le_zero.mp hj
    subst hj0
    rw [Nat.add_zero, Nat.mod_eq_of_lt hidx] at hcond
    simp only [walk_edge]
    rw [if_neg]
    · rfl
    · rw [hcond]; exact Bool.false_ne_true
  | succ f ih =>
    rintro idx hidx ⟨j, hj, hcond⟩
    by_cases hc : cond (outline.getD idx (0, 0)) = true
    · have hj0 : j ≠ 0 := by
        intro h0
        subst h0
        rw [Nat.add_zero, Nat.mod_eq_of_lt hidx] at hcond
        rw [hc] at hcond
        exact Bool.noConfusion hcond
      obtain ⟨j2, rfl⟩ := Nat.exists_eq_succ_of_ne_zero hj0
      have hn : 0 < outline.length := by omega
      have hmod : ((idx + 1) % outline.length + j2) % outline.length =
          (idx + (j2 + 1)) % outline.length := by
        rw [Nat.mod_add_mod]
        congr 1
        omega
      have hrec := ih ((idx + 1) % outline.length) (Nat.mod_lt _ hn)
        ⟨j2, by omega, by rw [hmod]; exact hcond⟩
      obtain ⟨w, hw⟩ := Option.isSome_iff_exists.mp hrec
      simp only [walk_edge]
      rw [if_pos hc, hw]
      rfl
    · simp only [walk_edge]
      rw [if_neg hc]
      rfl

theorem walk_edge_subset (outline : List Point) (cond : Point → Bool) :
    ∀ (fuel idx : ℕ) (w : List Point), idx < outline.length →
      walk_edge outline cond fuel idx = some w → ∀ p ∈ w, p ∈ outline := by
  intro fuel
  induction fuel with
  | zero =>
    intro idx w hidx h p hp
    simp only [walk_edge] at h
    by_cases hc : cond (outline.getD idx (0, 0)) = true
    · rw [if_pos hc] at h
      exact Option.noConfusion h
    · rw [if_neg hc] at h
      obtain rfl := Option.some.inj h
      simp at hp
  | succ f ih =>
    intro idx w hidx h p hp
    simp only [walk_edge] at h
    by_cases hc : cond (outline.getD idx (0, 0)) = true
    · rw [if_pos hc] at h
      obtain ⟨w2, hw2, rfl⟩ := Option.map_eq_some'.mp h
      rcases List.mem_cons.mp hp with rfl | hp2
      · rw [List.getD_eq_getElem _ _ hidx]
        exact List.getElem_mem hidx
      · have hn : 0 < outline.length := by omega
        exact ih ((idx + 1) % outline.length) w2 (Nat.mod_lt _ hn) hw2 p hp2
    · rw [if_neg hc] at h
      obtain rfl := Option.some.inj h
      simp at hp

end BoardCutout
namespace BoardCutout

theorem extract_corner_zero_eq (outline : List Point) (tab_size tol : ℚ) (corner : Fin 4)
    (hc : corner.val = 0) :
    extract_corner outline corner tab_size tol =
    ((List.findIdx? (fun q => decide (|q.2 - min_y outline| ≤ tol)) outline).bind fun i =>
      (walk_edge outline (fun q => decide (tol < |q.1 - min_x outline|)) outline.length
        (if min_x outline + tab_x outline tab_size < (outline.getD i (0, 0)).1
         then (i + 1) % outline.length else i)).map
        fun w => (min_x outline + tab_x outline tab_size, min_y outline) ::
          (w ++ [(min_x outline, min_y outline + tab_y outline tab_size)])) := by
  simp only [extract_corner, hc]
  norm_num [start_xy, end_xy]

theorem extract_corner_one_eq (outline : List Point) (tab_size tol : ℚ) (corner : Fin 4)
    (hc : corner.val = 1) :
    extract_corner outline corner tab_size tol =
    ((List.findIdx? (fun q => decide (|q.1 - min_x outline| ≤ tol)) outline).bind fun i =>
      (walk_edge outline (fun q => decide (tol < |q.2 - max_y outline|)) outline.length
        (if (outline.getD i (0, 0)).2 < max_y outline - tab_y outline tab_size
         then (i + 1) % outline.length else i)).map
        fun w => (min_x outline, max_y outline - tab_y outline tab_size) ::
          (w ++ [(min_x outline + tab_x outline tab_size, max_y outline)])) := by
  simp only [extract_corner, hc]
  norm_num [start_xy, end_xy]

theorem extract_corner_two_eq (outline : List Point) (tab_size tol : ℚ) (corner : Fin 4)
    (hc : corner.val = 2) :
    extract_corner outline corner tab_size tol =
    ((List.findIdx? (fun q => decide (|q.2 - max_y outline| ≤ tol)) outline).bind fun i =>
      (walk_edge outline (fun q => decide (tol < |q.1 - max_x outline|)) outline.length
        (if (outline.getD i (0, 0)).1 < max_x outline - tab_x outline tab_size
         then (i + 1) % outline.length else i)).map
        fun w => (max_x outline - tab_x outline tab_size, max_y outline) ::
          (w ++ [(max_x outline, max_y outline - tab_y outline tab_size)])) := by
  simp only [extract_corner, hc]
  norm_num [start_xy, end_xy]

theorem extract_corner_three_eq (outline : List Point) (tab_size tol : ℚ) (corner : Fin 4)
    (hc : corner.val = 3) :
    extract_corner outline corner tab_size tol =
    ((List.findIdx? (fun q => decide (|q.1 - max_x outline| ≤ tol)) outline).bind fun i =>
      (walk_edge outline (fun q => decide (tol < |q.2 - min_y outline|)) outline.length
        (if min_y outline + tab_y outline tab_size < (outline.getD i (0, 0)).2
         then (i + 1) % outline.length else i)).map
        fun w => (max_x outline, min_y outline + tab_y outline tab_size) ::
          (w ++ [(max_x outline - tab_x outline tab_size, min_y outline)])) := by
  simp only [extract_corner, hc]
  norm_num [start_xy, end_xy]

theorem bind_walk_isSome (outline : List Point) (hne : outline ≠ []) (tol : ℚ)
    (htol : 0 ≤ tol) (condS : Point → Bool) (f : Point → ℚ) (bW : ℚ) (i2of : ℕ → ℕ)
    (mapper : List Point → List Point)
    (hattS : ∃ q ∈ outline, condS q = true)
    (hattW : ∃ q ∈ outline, f q = bW)
    (hi2 : ∀ i, i < outline.length → i2of i < outline.length) :
    ((List.findIdx? condS outline).bind fun i =>
      (walk_edge outline (fun q => decide (tol < |f q - bW|)) outline.length (i2of i)).map
        mapper).isSome = true := by
  obtain ⟨q, hq, hcq⟩ := hattS
  have hfind : (List.findIdx? condS outline).isSome = true := by
    rw [List.findIdx?_isSome, List.any_eq_true]
    exact ⟨q, hq, hcq⟩
  obtain ⟨i, hi⟩ := Option.isSome_iff_exists.mp hfind
  obtain ⟨hilen, -, -⟩ := List.findIdx?_eq_some_iff_getElem.mp hi
  rw [hi]
  simp only [Option.some_bind]
  obtain ⟨qw, hqw, hfqw⟩ := hattW
  obtain ⟨⟨r, hr⟩, hget⟩ := List.mem_iff_get.mp hqw
  obtain ⟨j, hjlt, hjmod⟩ := exists_shift_mod (i2of i) r outline.length hr
  have hwalk := walk_edge_isSome outline (fun q => decide (tol < |f q - bW|))
    outline.length (i2of i) (hi2 i hilen) ⟨j, le_of_lt hjlt, by
      rw [hjmod, List.getD_eq_getElem _ _ hr]
      apply decide_eq_false
      rw [show outline[r] = qw from hget, hfqw, sub_self, abs_zero]
      exact not_lt.mpr htol⟩
  obtain ⟨w, hw⟩ := Option.isSome_iff_exists.mp hwalk
  rw [hw]
  rfl

theorem bind_walk_points (outline : List Point) (cond2 condS : Point → Bool)
    (i2of : ℕ → ℕ) (s e : Point) (res : List Point)
    (h : ((List.findIdx? condS outline).bind fun i =>
      (walk_edge outline cond2 outline.length (i2of i)).map
        (fun w => s :: (w ++ [e]))) = some res)
    (hi2 : ∀ i, i < outline.length → i2of i < outline.length) :
    ∀ p ∈ res, p = s ∨ p = e ∨ p ∈ outline := by
  cases hfi : List.findIdx? condS outline with
  | none =>
    rw [hfi] at h
    exact Option.noConfusion h
  | some i =>
    rw [hfi] at h
    simp only [Option.some_bind] at h
    obtain ⟨w, hw, rfl⟩ := Option.map_eq_some'.mp h
    obtain ⟨hilen, -, -⟩ := List.findIdx?_eq_some_iff_getElem.mp hfi
    intro p hp
    rcases List.mem_cons.mp hp with rfl | hp2
    · exact Or.inl rfl
    rcases List.mem_append.mp hp2 with hpw | hpe
    · exact Or.inr (Or.inr
        (walk_edge_subset outline cond2 outline.length (i2of i) w (hi2 i hilen) hw p hpw))
    · exact Or.inr (Or.inl (by simpa using hpe))

theorem extract_corner_isSome (outline : List Point) (hne : outline ≠ [])
    (corner : Fin 4) (tab_size tol : ℚ) (htol : 0 ≤ tol) :
    (extract_corner outline corner tab_size tol).isSome = true := by
  have hn : 0 < outline.length := List.length_pos.mpr hne
  have h4 := corner.isLt
  have habs : ∀ b : ℚ, |b - b| ≤ tol := fun b => by rw [sub_self, abs_zero]; exact htol
  rcases (by omega : corner.val = 0 ∨ corner.val = 1 ∨ corner.val = 2 ∨ corner.val = 3)
    with hc | hc | hc | hc
  · rw [extract_corner_zero_eq outline tab_size tol corner hc]
    refine bind_walk_isSome outline hne tol htol _ _ _ _ _ ?_ (exists_fst_min_x hne) ?_
    · obtain ⟨q, hq, hq2⟩ := exists_snd_min_y hne
      exact ⟨q, hq, decide_eq_true (by rw [hq2]; exact habs _)⟩
    · intro i hi
      dsimp only
      split
      · exact Nat.mod_lt _ hn
      · exact hi
  · rw [extract_corner_one_eq outline tab_size tol corner hc]
    refine bind_walk_isSome outline hne tol htol _ _ _ _ _ ?_ (exists_snd_max_y hne) ?_
    · obtain ⟨q, hq, hq2⟩ := exists_fst_min_x hne
      exact ⟨q, hq, decide_eq_true (by rw [hq2]; exact habs _)⟩
    · intro i hi
      dsimp only
      split
      · exact Nat.mod_lt _ hn
      · exact hi
  · rw [extract_corner_two_eq outline tab_size tol corner hc]
    refine bind_walk_isSome outline hne tol htol _ _ _ _ _ ?_ (exists_fst_max_x hne) ?_
    · obtain ⟨q, hq, hq2⟩ := exists_snd_max_y hne
      exact ⟨q, hq, decide_eq_true (by rw [hq2]; exact habs _)⟩
    · intro i hi
      dsimp only
      split
      · exact Nat.mod_lt _ hn
      · exact hi
  · rw [extract_corner_three_eq outline tab_size tol corner hc]
    refine bind_walk_isSome outline hne tol htol _ _ _ _ _ ?_ (exists_snd_min_y hne) ?_
    · obtain ⟨q, hq, hq2⟩ := exists_fst_max_x hne
      exact ⟨q, hq, decide_eq_true (by rw [hq2]; exact habs _)⟩
    · intro i hi
      dsimp only
      split
      · exact Nat.mod_lt _ hn
      · exact hi

theorem extract_corner_points (outline : List Point) (hne : outline ≠ [])
    (corner : Fin 4) (tab_size tol : ℚ) (res : List Point)
    (h : extract_corner outline corner tab_size tol = some res) :
    ∀ p ∈ res, p = (start_xy outline tab_size).getD corner.val (0, 0) ∨
      p = (end_xy outline tab_size).getD corner.val (0, 0) ∨ p ∈ outline := by
  have hn : 0 < outline.length := List.length_pos.mpr hne
  rcases (by omega : corner.val = 0 ∨ corner.val = 1 ∨ corner.val = 2 ∨ corner.val = 3)
    with hc | hc | hc | hc <;> rw [hc]
  · rw [extract_corner_zero_eq outline tab_size tol corner hc] at h
    have h2 := bind_walk_points outline _ _ _ _ _ res h (fun i hi => by
      split
      · exact Nat.mod_lt _ hn
      · exact hi)
    simpa [start_xy, end_xy] using h2
  · rw [extract_corner_one_eq outline tab_size tol corner hc] at h
    have h2 := bind_walk_points outline _ _ _ _ _ res h (fun i hi => by
      split
      · exact Nat.mod_lt _ hn
      · exact hi)
    simpa [start_xy, end_xy] using h2
  · rw [extract_corner_two_eq outline tab_size tol corner hc] at h
    have h2 := bind_walk_points outline _ _ _ _ _ res h (fun i hi => by
      split
      · exact Nat.mod_lt _ hn
      · exact hi)
    simpa [start_xy, end_xy] using h2
  · rw [extract_corner_three_eq outline tab_size tol corner hc] at h
    have h2 := bind_walk_points outline _ _ _ _ _ res h (fun i hi => by
      split
      · exact Nat.mod_lt _ hn
      · exact hi)
    simpa [start_xy, end_xy] using h2

end BoardCutout
namespace BoardCutout

/-- C9: for every non-empty outline, every corner index in 0..3, every tab size,
and a non-negative tolerance, `extract_corner` never raises and always terminates:
the initial starting-edge search finds a vertex (the extremal bounds are attained
by outline vertices) and each cyclic edge walk stops within at most one full lap. -/
theorem c9_extract_corner_total (outline : List Point) (hne : outline ≠ [])
    (corner : Fin 4) (tab_size tol : ℚ) (htol : 0 ≤ tol) :
    (extract_corner outline corner tab_size tol).isSome = true :=
  extract_corner_isSome outline hne corner tab_size tol htol

/-- Closed witness for C9 at a concrete square outline. -/
theorem c9_witness :
    (extract_corner (cw_rect 0 0 1 1) 1 (15/100) Tolerance).isSome = true :=
  c9_extract_corner_total (cw_rect 0 0 1 1) (by simp [cw_rect]) 1 (15/100) Tolerance
    (by norm_num [Tolerance])

/-- C2 as stated is refuted: with `tab_size = 1 = min(width, height)` on the unit
square, `extract_corner` raises no error at all and returns a degenerate segment
(both tab boundary points collapse onto the corner). -/
theorem c2_counterexample :
    extract_corner (cw_rect 0 0 1 1) 0 1 Tolerance = some [(0, 0), (0, 0)] := by
  norm_num [extract_corner, cw_rect, start_xy, end_xy, min_x, max_x, min_y, max_y,
    tab_x, tab_y, xsOf, ysOf, pyMin, pyMax, List.findIdx?, walk_edge, Tolerance]

/-- C2 amended: `extract_corner` performs no tab-size validation; for every
non-empty outline and every `tab_size ≥ min(width, height)` of its extents it
still returns a segment (`some`) instead of raising a configuration error. -/
theorem c2_no_tab_size_validation (outline : List Point) (hne : outline ≠ [])
    (corner : Fin 4) (tab_size tol : ℚ) (htol : 0 ≤ tol)
    (_hdeg : min (max_x outline - min_x outline) (max_y outline - min_y outline) ≤
      tab_size) :
    (extract_corner outline corner tab_size tol).isSome = true :=
  extract_corner_isSome outline hne corner tab_size tol htol

/-- Closed witness for the amended C2 at a degenerate tab size. -/
theorem c2_witness :
    min (max_x (cw_rect 0 0 1 1) - min_x (cw_rect 0 0 1 1))
        (max_y (cw_rect 0 0 1 1) - min_y (cw_rect 0 0 1 1)) ≤ 2 ∧
      (extract_corner (cw_rect 0 0 1 1) 0 2 Tolerance).isSome = true :=
  ⟨by norm_num [min_x, max_x, min_y, max_y, xsOf, ysOf, pyMin, pyMax, cw_rect],
   c2_no_tab_size_validation (cw_rect 0 0 1 1) (by simp [cw_rect]) 0 2 Tolerance
     (by norm_num [Tolerance])
     (by norm_num [min_x, max_x, min_y, max_y, xsOf, ysOf, pyMin, pyMax, cw_rect])⟩

/-- C1: for an offset polygon whose outline is a clockwise-traversed rectangle of
width `w` and height `h` (any starting vertex), any tab size with
`0 < tab_size < min w h`, and any corner, no point of the extracted corner segment
has a coordinate strictly inside the open tab-gap interval on either axis. -/
theorem c1_tab_exclusion (x0 y0 w h tab_size tol : ℚ) (hw : 0 < w) (hh : 0 < h)
    (ht0 : 0 < tab_size) (htw : tab_size < w) (hth : tab_size < h) (k : ℕ)
    (corner : Fin 4) (res : List Point)
    (hres : extract_corner ((cw_rect x0 y0 w h).rotate k) corner tab_size tol =
      some res) :
    ∀ p ∈ res,
      ¬(x0 + (w - tab_size) / 2 < p.1 ∧ p.1 < x0 + w - (w - tab_size) / 2) ∧
      ¬(y0 + (h - tab_size) / 2 < p.2 ∧ p.2 < y0 + h - (h - tab_size) / 2) := by
  set R := (cw_rect x0 y0 w h).rotate k with hR
  have hlen : R.length = 4 := by rw [hR, List.length_rotate]; rfl
  have hne : R ≠ [] := by
    intro h0
    rw [h0] at hlen
    simp at hlen
  have hmem : ∀ p ∈ R, (p.1 = x0 ∨ p.1 = x0 + w) ∧ (p.2 = y0 ∨ p.2 = y0 + h) := by
    intro p hp
    rw [hR, List.mem_rotate] at hp
    simp only [cw_rect, List.mem_cons, List.not_mem_nil, or_false] at hp
    rcases hp with rfl | rfl | rfl | rfl <;> simp
  have hx0y0 : ((x0, y0) : Point) ∈ R := by
    rw [hR, List.mem_rotate]
    simp [cw_rect]
  have hxwyh : ((x0 + w, y0 + h) : Point) ∈ R := by
    rw [hR, List.mem_rotate]
    simp [cw_rect]
  have hminx : min_x R = x0 := by
    apply pyMin_eq_of
    · exact List.mem_map.mpr ⟨(x0, y0), hx0y0, rfl⟩
    · intro a ha
      obtain ⟨p, hp, rfl⟩ := List.mem_map.mp ha
      rcases (hmem p hp).1 with h2 | h2 <;> rw [h2] <;> linarith
  have hmaxx : max_x R = x0 + w := by
    apply pyMax_eq_of
    · exact List.mem_map.mpr ⟨(x0 + w, y0 + h), hxwyh, rfl⟩
    · intro a ha
      obtain ⟨p, hp, rfl⟩ := List.mem_map.mp ha
      rcases (hmem p hp).1 with h2 | h2 <;> rw [h2] <;> linarith
  have hminy : min_y R = y0 := by
    apply pyMin_eq_of
    · exact List.mem_map.mpr ⟨(x0, y0), hx0y0, rfl⟩
    · intro a ha
      obtain ⟨p, hp, rfl⟩ := List.mem_map.mp ha
      rcases (hmem p hp).2 with h2 | h2 <;> rw [h2] <;> linarith
  have hmaxy : max_y R = y0 + h := by
    apply pyMax_eq_of
    · exact List.mem_map.mpr ⟨(x0 + w, y0 + h), hxwyh, rfl⟩
    · intro a ha
      obtain ⟨p, hp, rfl⟩ := List.mem_map.mp ha
      rcases (hmem p hp).2 with h2 | h2 <;> rw [h2] <;> linarith
  have htx : tab_x R tab_size = (w - tab_size) / 2 := by
    rw [tab_x, hminx, hmaxx]; ring
  have hty : tab_y R tab_size = (h - tab_size) / 2 := by
    rw [tab_y, hminy, hmaxy]; ring
  have hS := extract_corner_points R hne corner tab_size tol res hres
  have hsmem : (start_xy R tab_size).getD corner.val (0, 0) ∈ start_xy R tab_size := by
    rw [List.getD_eq_getElem _ _ (by simpa [start_xy] using corner.isLt)]
    exact List.getElem_mem _
  have hemem : (end_xy R tab_size).getD corner.val (0, 0) ∈ end_xy R tab_size := by
    rw [List.getD_eq_getElem _ _ (by simpa [end_xy] using corner.isLt)]
    exact List.getElem_mem _
  have hcoordS : ∀ q ∈ start_xy R tab_size,
      (q.1 = x0 ∨ q.1 = x0 + w ∨ q.1 = x0 + (w - tab_size) / 2 ∨
        q.1 = x0 + w - (w - tab_size) / 2) ∧
      (q.2 = y0 ∨ q.2 = y0 + h ∨ q.2 = y0 + (h - tab_size) / 2 ∨
        q.2 = y0 + h - (h - tab_size) / 2) := by
    intro q hq
    simp only [start_xy, hminx, hmaxx, hminy, hmaxy, htx, hty, List.mem_cons,
      List.not_mem_nil, or_false] at hq
    rcases hq with rfl | rfl | rfl | rfl <;> constructor <;> simp <;> ring_nf <;> simp
  have hcoordE : ∀ q ∈ end_xy R tab_size,
      (q.1 = x0 ∨ q.1 = x0 + w ∨ q.1 = x0 + (w - tab_size) / 2 ∨
        q.1 = x0 + w - (w - tab_size) / 2) ∧
      (q.2 = y0 ∨ q.2 = y0 + h ∨ q.2 = y0 + (h - tab_size) / 2 ∨
        q.2 = y0 + h - (h - tab_size) / 2) := by
    intro q hq
    simp only [end_xy, hminx, hmaxx, hminy, hmaxy, htx, hty, List.mem_cons,
      List.not_mem_nil, or_false] at hq
    rcases hq with rfl | rfl | rfl | rfl <;> constructor <;> simp <;> ring_nf <;> simp
  intro p hp
  have hco : (p.1 = x0 ∨ p.1 = x0 + w ∨ p.1 = x0 + (w - tab_size) / 2 ∨
      p.1 = x0 + w - (w - tab_size) / 2) ∧
      (p.2 = y0 ∨ p.2 = y0 + h ∨ p.2 = y0 + (h - tab_size) / 2 ∨
        p.2 = y0 + h - (h - tab_size) / 2) := by
    rcases hS p hp with rfl | rfl | hmemR
    · exact hcoordS _ hsmem
    · exact hcoordE _ hemem
    · obtain ⟨h1, h2⟩ := hmem p hmemR
      constructor
      · rcases h1 with h3 | h3
        · exact Or.inl h3
        · exact Or.inr (Or.inl h3)
      · rcases h2 with h3 | h3
        · exact Or.inl h3
        · exact Or.inr (Or.inl h3)
  obtain ⟨hx, hy⟩ := hco
  constructor
  · rintro ⟨ha, hb⟩
    rcases hx with h3 | h3 | h3 | h3 <;> rw [h3] at ha hb <;> linarith
  · rintro ⟨ha, hb⟩
    rcases hy with h3 | h3 | h3 | h3 <;> rw [h3] at ha hb <;> linarith

/-- Closed witness for C1 on the unit square with tab size 0.15. -/
theorem c1_witness :
    ¬(0 + ((1 : ℚ) - 15/100) / 2 < ((17/40 : ℚ), (0 : ℚ)).1 ∧
        ((17/40 : ℚ), (0 : ℚ)).1 < 0 + 1 - (1 - 15/100) / 2) ∧
    ¬(0 + ((1 : ℚ) - 15/100) / 2 < ((17/40 : ℚ), (0 : ℚ)).2 ∧
        ((17/40 : ℚ), (0 : ℚ)).2 < 0 + 1 - (1 - 15/100) / 2) :=
  c1_tab_exclusion 0 0 1 1 (15/100) Tolerance (by norm_num) (by norm_num) (by norm_num)
    (by norm_num) (by norm_num) 0 0 [(17/40, 0), (0, 17/40)]
    (by rw [List.rotate_zero]
        norm_num [extract_corner, cw_rect, start_xy, end_xy, min_x, max_x, min_y, max_y,
          tab_x, tab_y, xsOf, ysOf, pyMin, pyMax, List.findIdx?, walk_edge, Tolerance])
    (17/40, 0) (by norm_num)

end BoardCutout
namespace BoardCutout

theorem foldl_argmin_spec (key : ℕ → ℚ) :
    ∀ (is : List ℕ) (a : ℕ),
      (is.foldl (fun acc i => if key i < key acc then i else acc) a = a ∨
        is.foldl (fun acc i => if key i < key acc then i else acc) a ∈ is) ∧
      key (is.foldl (fun acc i => if key i < key acc then i else acc) a) ≤ key a ∧
      ∀ i ∈ is, key (is.foldl (fun acc i => if key i < key acc then i else acc) a) ≤ key i := by
  intro is
  induction is with
  | nil => intro a; exact ⟨Or.inl rfl, le_refl _, by simp⟩
  | cons i is ih =>
    intro a
    rw [List.foldl_cons]
    by_cases hc : key i < key a
    · rw [if_pos hc]
      obtain ⟨hmem, hlea, hall⟩ := ih i
      refine ⟨?_, hlea.trans (le_of_lt hc), ?_⟩
      · rcases hmem with h2 | h2
        · exact Or.inr (by rw [h2]; exact List.mem_cons_self i is)
        · exact Or.inr (List.mem_cons_of_mem i h2)
      · intro j hj
        rcases List.mem_cons.mp hj with rfl | hj2
        · exact hlea
        · exact hall j hj2
    · rw [if_neg hc]
      obtain ⟨hmem, hlea, hall⟩ := ih a
      refine ⟨?_, hlea, ?_⟩
      · rcases hmem with h2 | h2
        · exact Or.inl h2
        · exact Or.inr (List.mem_cons_of_mem i h2)
      · intro j hj
        rcases List.mem_cons.mp hj with rfl | hj2
        · exact hlea.trans (not_lt.mp hc)
        · exact hall j hj2

theorem min_idx_spec (l : List Point) (hne : l ≠ []) :
    min_idx l < l.length ∧ ∀ j < l.length, sq_dist l (min_idx l) ≤ sq_dist l j := by
  have hn : 0 < l.length := List.length_pos.mpr hne
  obtain ⟨hmem, hle0, hall⟩ := foldl_argmin_spec (sq_dist l) (List.range l.length) 0
  rw [min_idx]
  constructor
  · rcases hmem with h2 | h2
    · rw [h2]; exact hn
    · exact List.mem_range.mp h2
  · intro j hj
    exact hall j (List.mem_range.mpr hj)

theorem scan_start_spec (l : List Point) :
    ∀ (fuel idx k : ℕ), idx < l.length → k < fuel →
      xor_cond l ((idx + k) % l.length) = true →
      (∀ j < k, xor_cond l ((idx + j) % l.length) = false) →
      scan_start l fuel idx = (idx + k) % l.length := by
  intro fuel
  induction fuel with
  | zero => intro idx k _ hk; omega
  | succ f ih =>
    intro idx k hidx hk hcond hmin
    by_cases hc : xor_cond l idx = true
    · rcases Nat.eq_zero_or_pos k with rfl | hkpos
      · simp only [scan_start]
        rw [if_pos hc, Nat.add_zero, Nat.mod_eq_of_lt hidx]
      · exfalso
        have h0 := hmin 0 hkpos
        rw [Nat.add_zero, Nat.mod_eq_of_lt hidx, hc] at h0
        exact Bool.noConfusion h0
    · rcases Nat.eq_zero_or_pos k with rfl | hkpos
      · rw [Nat.add_zero, Nat.mod_eq_of_lt hidx] at hcond
        exact absurd hcond hc
      · obtain ⟨k2, rfl⟩ := Nat.exists_eq_succ_of_ne_zero (Nat.pos_iff_ne_zero.mp hkpos)
        simp only [scan_start]
        rw [if_neg hc]
        have hn : 0 < l.length := by omega
        have hmod : ∀ j : ℕ, ((idx + 1) % l.length + j) % l.length =
            (idx + (j + 1)) % l.length := by
          intro j
          rw [Nat.mod_add_mod]
          congr 1
          omega
        have hgoal : (idx + k2.succ) % l.length = ((idx + 1) % l.length + k2) % l.length :=
          (hmod k2).symm
        rw [hgoal]
        exact ih ((idx + 1) % l.length) k2 (Nat.mod_lt _ hn) (by omega)
          (by rw [hmod k2]; exact hcond)
          (fun j hj => by rw [hmod j]; exact hmin (j + 1) (by omega))

/-- C6: the outline returned by the re-basing step of `offset` is the buffered
boundary's coordinate list rotated to start at the first vertex — scanning forward
from the (first) vertex of minimum squared distance to the origin — whose
transition to the next vertex satisfies the exclusive-or axis-alignment test; and
re-basing is deterministic (equal buffered inputs give equal output). -/
theorem c6_rebase_characterization (l : List Point) (hne : l ≠ [])
    (hex : ∃ i < l.length, xor_cond l i = true) :
    (min_idx l < l.length ∧ ∀ j < l.length, sq_dist l (min_idx l) ≤ sq_dist l j) ∧
    (∃ k, xor_cond l ((min_idx l + k) % l.length) = true ∧
      (∀ j < k, xor_cond l ((min_idx l + j) % l.length) = false) ∧
      rebase l = l.drop ((min_idx l + k) % l.length) ++
        l.take ((min_idx l + k) % l.length)) ∧
    (∀ l2, l2 = l → rebase l2 = rebase l) := by
  obtain ⟨hmlt, hmin⟩ := min_idx_spec l hne
  refine ⟨⟨hmlt, hmin⟩, ?_, fun l2 h2 => by rw [h2]⟩
  obtain ⟨i, hi, hcond⟩ := hex
  obtain ⟨j0, hj0lt, hj0⟩ := exists_shift_mod (min_idx l) i l.length hi
  have hQ : ∃ j, xor_cond l ((min_idx l + j) % l.length) = true := ⟨j0, by rw [hj0]; exact hcond⟩
  refine ⟨Nat.find hQ, Nat.find_spec hQ, fun j hj => ?_, ?_⟩
  · have := Nat.find_min hQ hj
    simpa using this
  · have hklt : Nat.find hQ < l.length :=
      lt_of_le_of_lt (Nat.find_min' hQ (by rw [hj0]; exact hcond)) hj0lt
    rw [rebase]
    rw [scan_start_spec l l.length (min_idx l) (Nat.find hQ) hmlt hklt (Nat.find_spec hQ)
      (fun j hj => by simpa using Nat.find_min hQ hj)]

/-- Closed witness for C6 on a concrete buffered square boundary. -/
theorem c6_witness :
    (min_idx (cw_rect 0 0 1 1) < (cw_rect 0 0 1 1).length ∧
      ∀ j < (cw_rect 0 0 1 1).length,
        sq_dist (cw_rect 0 0 1 1) (min_idx (cw_rect 0 0 1 1)) ≤ sq_dist (cw_rect 0 0 1 1) j) ∧
    (∃ k, xor_cond (cw_rect 0 0 1 1)
        ((min_idx (cw_rect 0 0 1 1) + k) % (cw_rect 0 0 1 1).length) = true ∧
      (∀ j < k, xor_cond (cw_rect 0 0 1 1)
        ((min_idx (cw_rect 0 0 1 1) + j) % (cw_rect 0 0 1 1).length) = false) ∧
      rebase (cw_rect 0 0 1 1) =
        (cw_rect 0 0 1 1).drop
          ((min_idx (cw_rect 0 0 1 1) + k) % (cw_rect 0 0 1 1).length) ++
        (cw_rect 0 0 1 1).take
          ((min_idx (cw_rect 0 0 1 1) + k) % (cw_rect 0 0 1 1).length)) ∧
    (∀ l2, l2 = cw_rect 0 0 1 1 → rebase l2 = rebase (cw_rect 0 0 1 1)) :=
  c6_rebase_characterization (cw_rect 0 0 1 1) (by simp [cw_rect])
    ⟨0, by norm_num [cw_rect], by norm_num [cw_rect, xor_cond, Tolerance]⟩

end BoardCutout
namespace BoardCutout

theorem scan_mid (s0 : Point) :
    ∀ (mid : List Point) (acc : List (List Point)) (cur : List Point),
      (∀ q ∈ mid, closes q s0 = false) →
      (mid.map some).foldl scan_step ⟨acc, cur, some s0⟩ = ⟨acc, cur ++ mid, some s0⟩ := by
  intro mid
  induction mid with
  | nil => intro acc cur _; simp
  | cons q mid ih =>
    intro acc cur hq
    rw [List.map_cons, List.foldl_cons]
    have hstep : scan_step ⟨acc, cur, some s0⟩ (some q) = ⟨acc, cur ++ [q], some s0⟩ := by
      simp only [scan_step]
      rw [hq q (List.mem_cons_self q mid), Bool.false_and]
      rfl
    rw [hstep, ih acc (cur ++ [q]) (fun r hr => hq r (List.mem_cons_of_mem q hr))]
    simp

theorem scan_loop (p0 : Point) (mid : List Point) (pl : Point) (hmid : mid ≠ [])
    (hclose : closes pl p0 = true) (hnomid : ∀ q ∈ mid, closes q p0 = false) :
    ∀ acc : List (List Point),
      ((p0 :: mid ++ [pl]).map some).foldl scan_step ⟨acc, [], none⟩ =
        ⟨acc ++ [p0 :: mid ++ [pl]], [], none⟩ := by
  intro acc
  have h1 : scan_step ⟨acc, [], none⟩ (some p0) = ⟨acc, [p0], some p0⟩ := rfl
  simp only [List.map_append, List.map_cons, List.map_nil, List.foldl_append,
    List.foldl_cons, List.foldl_nil]
  rw [h1, scan_mid p0 mid acc [p0] hnomid, List.singleton_append]
  have hlen : 2 < ((p0 :: mid) ++ [pl]).length := by
    have := List.length_pos.mpr hmid
    simp only [List.length_append, List.length_cons, List.length_nil]
    omega
  simp only [scan_step]
  rw [hclose, Bool.true_and]
  rw [decide_eq_true hlen]
  rfl

theorem scan_loops :
    ∀ (loops : List (List Point)) (acc : List (List Point)),
      (∀ L ∈ loops, ∃ (p0 : Point) (mid : List Point) (pl : Point),
        L = p0 :: mid ++ [pl] ∧ mid ≠ [] ∧ closes pl p0 = true ∧
        ∀ q ∈ mid, closes q p0 = false) →
      ((loops.map (fun L => L.map some)).flatten).foldl scan_step ⟨acc, [], none⟩ =
        ⟨acc ++ loops, [], none⟩ := by
  intro loops
  induction loops with
  | nil => intro acc _; simp
  | cons L ls ih =>
    intro acc hp
    rw [List.map_cons, List.flatten_cons, List.foldl_append]
    obtain ⟨p0, mid, pl, hLe, hmid, hcl, hnm⟩ := hp L (List.mem_cons_self L ls)
    rw [hLe, scan_loop p0 mid pl hmid hcl hnm acc,
      ih (acc ++ [p0 :: mid ++ [pl]]) (fun L2 h2 => hp L2 (List.mem_cons_of_mem _ h2))]
    rw [← hLe]
    simp

theorem foldl_argmax_spec (key : List Point → ℚ) :
    ∀ (rest : List (List Point)) (x : List Point),
      (rest.foldl (fun acc y => if key acc < key y then y else acc) x = x ∨
        rest.foldl (fun acc y => if key acc < key y then y else acc) x ∈ rest) ∧
      key x ≤ key (rest.foldl (fun acc y => if key acc < key y then y else acc) x) ∧
      ∀ y ∈ rest, key y ≤ key (rest.foldl (fun acc y => if key acc < key y then y else acc) x) := by
  intro rest
  induction rest with
  | nil => intro x; exact ⟨Or.inl rfl, le_refl _, by simp⟩
  | cons y ys ih =>
    intro x
    rw [List.foldl_cons]
    by_cases hc : key x < key y
    · rw [if_pos hc]
      obtain ⟨hmem, hlea, hall⟩ := ih y
      refine ⟨?_, (le_of_lt hc).trans hlea, ?_⟩
      · rcases hmem with h2 | h2
        · exact Or.inr (by rw [h2]; exact List.mem_cons_self y ys)
        · exact Or.inr (List.mem_cons_of_mem y h2)
      · intro z hz
        rcases List.mem_cons.mp hz with rfl | hz2
        · exact hlea
        · exact hall z hz2
    · rw [if_neg hc]
      obtain ⟨hmem, hlea, hall⟩ := ih x
      refine ⟨?_, hlea, ?_⟩
      · rcases hmem with h2 | h2
        · exact Or.inl h2
        · exact Or.inr (List.mem_cons_of_mem y h2)
      · intro z hz
        rcases List.mem_cons.mp hz with rfl | hz2
        · exact (not_lt.mp hc).trans hlea
        · exact hall z hz2

theorem py_max_by_spec (key : List Point → ℚ) (rest : List (List Point)) (x : List Point) :
    (py_max_by key x rest = x ∨ py_max_by key x rest ∈ rest) ∧
    key x ≤ key (py_max_by key x rest) ∧
    ∀ y ∈ rest, key y ≤ key (py_max_by key x rest) := by
  rw [py_max_by]
  exact foldl_argmax_spec key rest x

/-- C5: for every instruction stream that is a concatenation of at least one
closed loop (each loop a point run whose last point returns within 1e-5 of its
first and whose intermediate points do not), with pairwise distinct absolute
shoelace areas, `find_board_outline` returns exactly the vertex list of the loop
of largest `polygon_area` (half the absolute cyclic shoelace sum). -/
theorem c5_area_selection (loops : List (List Point)) (hne : loops ≠ [])
    (hproper : ∀ L ∈ loops, ∃ (p0 : Point) (mid : List Point) (pl : Point),
      L = p0 :: mid ++ [pl] ∧ mid ≠ [] ∧ closes pl p0 = true ∧
      ∀ q ∈ mid, closes q p0 = false)
    (hdist : loops.Pairwise fun A B => polygon_area A ≠ polygon_area B) :
    ∃ Lmax ∈ loops,
      find_board_outline ((loops.map (fun L => L.map some)).flatten) = Lmax ∧
      ∀ L ∈ loops, L ≠ Lmax → polygon_area L < polygon_area Lmax := by
  have hscan := scan_loops loops [] hproper
  rw [List.nil_append] at hscan
  obtain ⟨L0, rest, rfl⟩ : ∃ L0 rest, loops = L0 :: rest := by
    cases loops with
    | nil => exact absurd rfl hne
    | cons a l => exact ⟨a, l, rfl⟩
  have hfbo : find_board_outline (((L0 :: rest).map (fun L => L.map some)).flatten) =
      py_max_by polygon_area L0 rest := by
    simp only [find_board_outline, hscan]
    norm_num
  obtain ⟨hmem, hle0, hall⟩ := py_max_by_spec polygon_area rest L0
  have hMmem : py_max_by polygon_area L0 rest ∈ L0 :: rest := by
    rcases hmem with h2 | h2
    · rw [h2]; exact List.mem_cons_self L0 rest
    · exact List.mem_cons_of_mem L0 h2
  refine ⟨py_max_by polygon_area L0 rest, hMmem, hfbo, ?_⟩
  intro L hL hLM
  have hsym : Symmetric fun A B : List Point => polygon_area A ≠ polygon_area B :=
    fun A B hAB => hAB.symm
  have hneq : polygon_area L ≠ polygon_area (py_max_by polygon_area L0 rest) :=
    List.Pairwise.forall hsym hdist hL hMmem hLM
  have hle : polygon_area L ≤ polygon_area (py_max_by polygon_area L0 rest) := by
    rcases List.mem_cons.mp hL with rfl | h2
    · exact hle0
    · exact hall L h2
  exact lt_of_le_of_ne hle hneq

/-- Closed witness for C5 on two concrete triangles of areas 2 and 1/2. -/
theorem c5_witness :
    ∃ Lmax ∈ ([[(0, 0), (2, 0), (0, 2), (0, 0)], [(0, 0), (1, 0), (0, 1), (0, 0)]] :
        List (List Point)),
      find_board_outline ((([[(0, 0), (2, 0), (0, 2), (0, 0)],
          [(0, 0), (1, 0), (0, 1), (0, 0)]] :
        List (List Point)).map (fun L => L.map some)).flatten) = Lmax ∧
      ∀ L ∈ ([[(0, 0), (2, 0), (0, 2), (0, 0)], [(0, 0), (1, 0), (0, 1), (0, 0)]] :
          List (List Point)),
        L ≠ Lmax → polygon_area L < polygon_area Lmax :=
  c5_area_selection _ (by simp)
    (by
      intro L hL
      simp only [List.mem_cons, List.not_mem_nil, or_false] at hL
      rcases hL with rfl | rfl
      · exact ⟨(0, 0), [(2, 0), (0, 2)], (0, 0), rfl, by simp, by norm_num [closes],
          by
            intro q hq
            simp only [List.mem_cons, List.not_mem_nil, or_false] at hq
            rcases hq with rfl | rfl <;> norm_num [closes]⟩
      · exact ⟨(0, 0), [(1, 0), (0, 1)], (0, 0), rfl, by simp, by norm_num [closes],
          by
            intro q hq
            simp only [List.mem_cons, List.not_mem_nil, or_false] at hq
            rcases hq with rfl | rfl <;> norm_num [closes]⟩)
    (by
      simp only [List.pairwise_cons, List.mem_cons, List.not_mem_nil, or_false,
        List.Pairwise.nil, and_true]
      refine ⟨fun L hL => ?_, fun L h0 => h0.elim⟩
      subst hL
      norm_num [polygon_area, List.range_succ])

/-- C3: on an instruction stream in which zero closed loops are recorded (here a
two-point run that never returns to its start), `find_board_outline` returns the
empty vertex list instead of signalling an error; the `__main__` driver performs
no emptiness check before handing this empty geometry to `offset`. -/
theorem c3_extractor_returns_empty :
    find_board_outline [some ((1 : ℚ), (1 : ℚ)), some ((2 : ℚ), (1 : ℚ))] = [] := by
  norm_num [find_board_outline, scan_step, closes]

end BoardCutout
namespace BoardCutout

/-- Closed witness for C7: the second pass (index 1) of corner block 0 on the unit
square runs in reverse. -/
theorem c7_witness :
    (([(-36/1000, [((0 : ℚ), (17 : ℚ)/40)]), (-42/1000, [(17/40, 0)]),
        (-48/1000, [(0, 17/40)]), (-54/1000, [(17/40, 0)]),
        (-60/1000, [(0, 17/40)])] : List (ℚ × List Point)).get ⟨1, by norm_num⟩).2 =
      if 1 % 2 = 0 then ([((17 : ℚ)/40, (0 : ℚ)), (0, 17/40)] : List Point).drop 1
      else ([((17 : ℚ)/40, (0 : ℚ)), (0, 17/40)] : List Point).dropLast.reverse :=
  c7_direction_alternation (cw_rect 0 0 1 1) (15/100) (-36/1000) (-66/1000) (-6/1000)
    Tolerance 10 0 [(17/40, 0), (0, 17/40)]
    [(-36/1000, [(0, 17/40)]), (-42/1000, [(17/40, 0)]), (-48/1000, [(0, 17/40)]),
      (-54/1000, [(17/40, 0)]), (-60/1000, [(0, 17/40)])]
    (by norm_num [extract_corner, cw_rect, start_xy, end_xy, min_x, max_x, min_y, max_y,
      tab_x, tab_y, xsOf, ysOf, pyMin, pyMax, List.findIdx?, walk_edge, Tolerance])
    (by norm_num [corner_block, extract_corner, cw_rect, start_xy, end_xy, min_x, max_x,
      min_y, max_y, tab_x, tab_y, xsOf, ysOf, pyMin, pyMax, List.findIdx?, walk_edge,
      Tolerance, corner_passes, corner_pass])
    1 (by norm_num)

end BoardCutout
